import Mathlib

/-!
Shallow embedding of
modules/planning/open_space/coarse_trajectory_generator/hybrid_a_star.cc
(the Hybrid A* coarse trajectory generator).

C++ doubles are modelled as rationals where only ordered-field arithmetic
occurs, and as reals where trigonometric functions are involved.  `Node3d`,
the grid index, angle normalization, and the box/segment overlap primitive
are declared outside this translation unit; where needed they are modelled
from the specification and marked as such.
-/

namespace HybridAStar

/-- Workspace bounds; models the `XYbounds_` vector `[xmin, xmax, ymin, ymax]`
(entries `[0]`, `[1]`, `[2]`, `[3]` of the C++ vector). -/
structure XYBounds where
  xmin : ℚ
  xmax : ℚ
  ymin : ℚ
  ymax : ℚ
deriving DecidableEq

/-- Modelled from the spec: `Node3d` (spec data model) carries the pose
sequences of the edge arriving at it, in traversal order as produced by
`Next_node_generator`, the incoming direction and steering, and the two cost
components.  `Node3d` itself is declared in a header outside this translation
unit. -/
structure Node3d where
  xs : List ℚ
  ys : List ℚ
  phis : List ℚ
  direction : Bool
  steer : ℚ
  trajCost : ℚ
  heuCost : ℚ
deriving DecidableEq

/-- Models `Node3d::GetStepSize()`: the length of the pose sequences. -/
def Node3d.stepSize (n : Node3d) : ℕ := n.xs.length

/-- Models `Node3d::GetX()`: the representative pose is the last entry. -/
def Node3d.x (n : Node3d) : ℚ := n.xs.getLastD 0

/-- Models `Node3d::GetY()`. -/
def Node3d.y (n : Node3d) : ℚ := n.ys.getLastD 0

/-- Models `Node3d::GetPhi()`. -/
def Node3d.phi (n : Node3d) : ℚ := n.phis.getLastD 0

/-- Models `Node3d::GetCost()`: `traj_cost_ + heuristic_cost_`. -/
def Node3d.cost (n : Node3d) : ℚ := n.trajCost + n.heuCost

/-- The bound-violation test of `ValidityCheck` (hybrid_a_star.cc lines
106-107): `x > XYbounds_[1] || x < XYbounds_[0] || y > XYbounds_[3] ||
y < XYbounds_[2]`. -/
def outOfBounds (b : XYBounds) (x y : ℚ) : Bool :=
  x > b.xmax || x < b.xmin || y > b.ymax || y < b.ymin

variable {α : Type}

/-- Models `HybridAStar::ValidityCheck` (hybrid_a_star.cc lines 83-122).  The
box/segment overlap primitive (`Node3d::GetBoundingBox` composed with
`Box2d::HasOverlap`) is outside this translation unit and is abstracted as a
predicate `hasOverlap` on the pose and an obstacle segment of arbitrary type
`α`.  The early return on an empty obstacle list, the reversal of the stored
sequences, and the `last_check_index` policy follow the source; the loop with
early `false` returns is rendered as `List.all` over the loop range. -/
def ValidityCheck (hasOverlap : ℚ → ℚ → ℚ → α → Bool)
    (obstacles : List (List α)) (b : XYBounds) (node : Node3d) : Bool :=
  if obstacles.isEmpty then true
  else
    let tx := node.xs.reverse
    let ty := node.ys.reverse
    let tphi := node.phis.reverse
    let lastCheckIndex := if node.stepSize = 1 then 1 else node.stepSize - 1
    (List.range lastCheckIndex).all fun i =>
      !outOfBounds b (tx.getD i 0) (ty.getD i 0) &&
      obstacles.all fun segs => segs.all fun seg =>
        !hasOverlap (tx.getD i 0) (ty.getD i 0) (tphi.getD i 0) seg

/-- Subtraction of one on `size_t` operands, as in `GetStepSize() - 1`
(hybrid_a_star.cc line 210) and `vertices_num - 1` (line 466): wraps modulo
`2 ^ 64`. -/
def sizeTSub1 (n : ℕ) : ℕ := (n + (2 ^ 64 - 1)) % 2 ^ 64

/-- The cost weights read from the warm-start configuration
(hybrid_a_star.cc lines 40-53). -/
structure CostParams where
  stepSizeLen : ℚ
  forwardPenalty : ℚ
  backPenalty : ℚ
  gearSwitchPenalty : ℚ
  steerPenalty : ℚ
  steerChangePenalty : ℚ

/-- Models `HybridAStar::TrajCost` (hybrid_a_star.cc lines 205-223):
sequential accumulation into `piecewise_cost`. -/
def TrajCost (p : CostParams) (current next : Node3d) : ℚ :=
  let c1 : ℚ :=
    if next.direction then
      0 + (sizeTSub1 next.stepSize : ℚ) * p.stepSizeLen * p.forwardPenalty
    else
      0 + (sizeTSub1 next.stepSize : ℚ) * p.stepSizeLen * p.backPenalty
  let c2 : ℚ := if current.direction == next.direction then c1
    else c1 + p.gearSwitchPenalty
  let c3 : ℚ := c2 + p.steerPenalty * |next.steer|
  c3 + p.steerChangePenalty * |next.steer - current.steer|

/-! ### Helper lemmas on list indexing -/

theorem getD_reverse (l : List ℚ) (i : ℕ) (h : i < l.length) :
    l.reverse.getD i 0 = l.getD (l.length - 1 - i) 0 := by
  have h1 : i < l.reverse.length := by simpa using h
  have h2 : l.length - 1 - i < l.length := by omega
  rw [List.getD_eq_getElem _ _ h1, List.getD_eq_getElem _ _ h2]
  exact List.getElem_reverse h1

/-! ### C1: validity check with an empty obstacle list -/

/-- Bounds used in the concrete counterexamples: `[0, 10, 0, 10]`. -/
def b0 : XYBounds := ⟨0, 10, 0, 10⟩

/-- A single-pose node whose pose `(100, 5)` lies outside `b0`. -/
def nodeOutside : Node3d := ⟨[100], [5], [0], true, 0, 0, 0⟩

/-- C1 (counterexample): with an empty obstacle list `ValidityCheck` returns
`true` even though the node's single checked pose lies outside `XYbounds`,
refuting the claimed equivalence with the bound check; consequently `Plan`'s
seed rejection cannot fire on an out-of-bounds start or end when the obstacle
list is empty. -/
theorem c1_counterexample :
    ValidityCheck (fun _ _ _ (_ : Unit) => false) [] b0 nodeOutside = true ∧
      outOfBounds b0 (nodeOutside.xs.getD 0 0) (nodeOutside.ys.getD 0 0)
        = true :=
  ⟨rfl, by decide⟩

/-- C1 (amended): when the obstacle list supplied to `Plan` is empty,
`ValidityCheck` returns `true` for every node without performing any bound
check; hence with an empty obstacle list the start/end validity checks of
`Plan` reject nothing. -/
theorem c1_theorem (hasOverlap : ℚ → ℚ → ℚ → α → Bool) (b : XYBounds)
    (node : Node3d) :
    ValidityCheck hasOverlap ([] : List (List α)) b node = true := rfl

/-! ### C4: which poses ValidityCheck examines -/

/-- A three-pose node whose first traversal pose `(100, 5)` is outside `b0`
while the later two poses are inside. -/
def nodeSkipFirst : Node3d := ⟨[100, 1, 2], [5, 5, 5], [0, 0, 0], true, 0, 0, 0⟩

/-- C4 (counterexample): with a nonempty obstacle list and a node of step
size 3 whose FIRST traversal pose is out of bounds, `ValidityCheck` returns
`true`: the pose skipped by `last_check_index` is the first pose of the
traversal (the parent's final pose), not the final pose as claimed. -/
theorem c4_counterexample :
    ValidityCheck (fun _ _ _ (_ : Unit) => false) [[()]] b0 nodeSkipFirst
        = true ∧
      nodeSkipFirst.stepSize = 3 ∧
      outOfBounds b0 (nodeSkipFirst.xs.getD 0 0) (nodeSkipFirst.ys.getD 0 0)
        = true := by
  refine ⟨by decide, rfl, by decide⟩

/-- C4 (amended): when the obstacle segment list is nonempty, `ValidityCheck`
accepts a node iff every examined traversal pose is inside the bounds and its
footprint overlaps no obstacle segment, where the examined poses are: the
single pose when `step_size = 1`, and every pose EXCEPT THE FIRST ONE of the
traversal when `step_size > 1` (the first pose equals the parent node's last
pose and was already examined in the parent's own check).  When the obstacle
list is empty no pose is examined at all. -/
theorem c4_theorem (hasOverlap : ℚ → ℚ → ℚ → α → Bool)
    (obstacles : List (List α)) (b : XYBounds) (node : Node3d)
    (hobs : obstacles ≠ [])
    (hy : node.ys.length = node.xs.length)
    (hphi : node.phis.length = node.xs.length)
    (hlen : 0 < node.xs.length) :
    (ValidityCheck hasOverlap obstacles b node = true ↔
      ∀ j < node.xs.length, (node.xs.length = 1 ∨ 1 ≤ j) →
        (outOfBounds b (node.xs.getD j 0) (node.ys.getD j 0) = false ∧
          ∀ segs ∈ obstacles, ∀ seg ∈ segs,
            hasOverlap (node.xs.getD j 0) (node.ys.getD j 0)
              (node.phis.getD j 0) seg = false)) := by
  have hne : obstacles.isEmpty = false := by
    cases obstacles with
    | nil => exact absurd rfl hobs
    | cons a l => rfl
  unfold ValidityCheck
  rw [hne]
  simp only [Bool.false_eq_true, if_false, List.all_eq_true, List.mem_range,
    Bool.and_eq_true, Bool.not_eq_true']
  have hlci : (if Node3d.stepSize node = 1 then 1 else Node3d.stepSize node - 1)
      ≤ node.xs.length := by
    unfold Node3d.stepSize
    split <;> omega
  constructor
  · intro h j hj hcheck
    have hrange : node.xs.length - 1 - j <
        (if Node3d.stepSize node = 1 then 1 else Node3d.stepSize node - 1) := by
      unfold Node3d.stepSize
      by_cases h1 : node.xs.length = 1
      · rw [if_pos h1]; omega
      · rw [if_neg h1]
        rcases hcheck with h2 | h2
        · exact absurd h2 h1
        · omega
    have := h (node.xs.length - 1 - j) hrange
    rw [getD_reverse _ _ (by omega), getD_reverse _ _ (by omega),
      getD_reverse _ _ (by omega)] at this
    rw [hy, hphi] at this
    have hj' : node.xs.length - 1 - (node.xs.length - 1 - j) = j := by omega
    rw [hj'] at this
    exact this
  · intro h i hi
    have hi' : i < node.xs.length := by omega
    rw [getD_reverse _ _ hi', getD_reverse _ _ (by omega),
      getD_reverse _ _ (by omega), hy, hphi]
    refine h (node.xs.length - 1 - i) (by omega) ?_
    unfold Node3d.stepSize at hi
    by_cases h1 : node.xs.length = 1
    · exact Or.inl h1
    · refine Or.inr ?_
      rw [if_neg h1] at hi
      omega

/-- C4 (witness): instantiation of the amended theorem at a concrete
single-pose node inside the bounds with one obstacle segment. -/
theorem c4_witness :
    (ValidityCheck (fun _ _ _ (_ : Unit) => false) [[()]] b0
        ⟨[1], [1], [0], true, 0, 0, 0⟩ = true ↔
      ∀ j < ([1] : List ℚ).length, (([1] : List ℚ).length = 1 ∨ 1 ≤ j) →
        (outOfBounds b0 (([1] : List ℚ).getD j 0) (([1] : List ℚ).getD j 0)
            = false ∧
          ∀ segs ∈ [[()]], ∀ seg ∈ segs,
            (fun _ _ _ (_ : Unit) => false) (([1] : List ℚ).getD j 0)
              (([1] : List ℚ).getD j 0) (([0] : List ℚ).getD j 0) seg
              = false)) :=
  c4_theorem (fun _ _ _ (_ : Unit) => false) [[()]] b0
    ⟨[1], [1], [0], true, 0, 0, 0⟩ (by decide) rfl rfl (by decide)

/-! ### C6: the edge cost formula -/

/-- C6: for every parent/successor pair, `TrajCost` equals
`(step_size − 1) · step_size · (forward or back penalty by next.direction)
+ (gear-switch penalty if the directions differ) + steer penalty · |next.steer|
+ steer-change penalty · |next.steer − current.steer|`, for nodes whose
pose-sequence length is that of a representable `std::vector`
(`1 ≤ len ≤ 2 ^ 64`). -/
theorem c6_theorem (p : CostParams) (current next : Node3d)
    (h1 : 1 ≤ next.stepSize) (h2 : next.stepSize ≤ 2 ^ 64) :
    TrajCost p current next =
      ((next.stepSize : ℚ) - 1) * p.stepSizeLen *
          (if next.direction then p.forwardPenalty else p.backPenalty) +
        (if current.direction = next.direction then 0 else p.gearSwitchPenalty) +
        p.steerPenalty * |next.steer| +
        p.steerChangePenalty * |next.steer - current.steer| := by
  have hnat : sizeTSub1 next.stepSize = next.stepSize - 1 := by
    unfold sizeTSub1
    omega
  have hs : (sizeTSub1 next.stepSize : ℚ) = (next.stepSize : ℚ) - 1 := by
    rw [hnat]
    push_cast [h1]
    ring
  unfold TrajCost
  rcases hd : next.direction <;> rcases hc : current.direction <;>
    all_goals (simp [hd, hc, hs]; try ring)

/-- C6 (witness): the formula evaluated at a concrete pair of nodes. -/
theorem c6_witness :
    TrajCost ⟨2, 3, 5, 7, 11, 13⟩ ⟨[0], [0], [0], true, 1, 0, 0⟩
        ⟨[0, 1, 2], [0, 0, 0], [0, 0, 0], false, 4, 0, 0⟩ =
      (((3 : ℕ) : ℚ) - 1) * 2 * (if false then (3 : ℚ) else 5) +
        (if true = false then 0 else (7 : ℚ)) + 11 * |(4 : ℚ)| +
        13 * |(4 : ℚ) - 1| :=
  c6_theorem ⟨2, 3, 5, 7, 11, 13⟩ ⟨[0], [0], [0], true, 1, 0, 0⟩
    ⟨[0, 1, 2], [0, 0, 0], [0, 0, 0], false, 4, 0, 0⟩ (by decide) (by decide)

/-! ### Real-valued kinematics: Next_node_generator -/

/-- Modelled from the spec: `common::math::NormalizeAngle` (outside this
translation unit) returns the representative of its argument in `(−π, π]`. -/
noncomputable def normalizeAngle (theta : ℝ) : ℝ :=
  theta - 2 * Real.pi * (⌈(theta - Real.pi) / (2 * Real.pi)⌉ : ℤ)

/-- One substep of the bicycle-model integration (hybrid_a_star.cc lines
167-171): `x ← x + d·cos φ`, `y ← y + d·sin φ`,
`φ ← normalize(φ + d / wheel_base · tan steering)`. -/
noncomputable def bicycleStep (wheelBase steering d : ℝ) (p : ℝ × ℝ × ℝ) :
    ℝ × ℝ × ℝ :=
  (p.1 + d * Real.cos p.2.2,
   p.2.1 + d * Real.sin p.2.2,
   normalizeAngle (p.2.2 + d / wheelBase * Real.tan steering))

/-- The iteration count of the loop `for (size_t i = 0; i < arc / step_size_;
++i)` (hybrid_a_star.cc line 166): the body runs exactly for the naturals `i`
with `(i : ℝ) < arc / step_size`, i.e. for `i < ⌈arc / step_size⌉₊`
(see `substepCount_runs`). -/
noncomputable def substepCount (q : ℝ) : ℕ := ⌈q⌉₊

theorem substepCount_runs (q : ℝ) (i : ℕ) :
    i < substepCount q ↔ (i : ℝ) < q :=
  Nat.lt_ceil

/-- The pose list built by the integration loop of `Next_node_generator`: the
current pose is pushed first, then `count` bicycle-model substeps are
appended, each starting from the previously pushed pose. -/
noncomputable def genPosesAux (wheelBase steering d : ℝ) :
    ℕ → ℝ × ℝ × ℝ → List (ℝ × ℝ × ℝ)
  | 0, p => [p]
  | m + 1, p =>
    p :: genPosesAux wheelBase steering d m (bicycleStep wheelBase steering d p)

/-- Models the intermediate-pose generation of `HybridAStar::Next_node_generator`
(hybrid_a_star.cc lines 156-178) for a given steering and signed travel
distance `d = ±step_size`: `arc = √2 · xy_grid_resolution` and the loop body
runs `substepCount (arc / step_size)` times. -/
noncomputable def nextNodePoses (wheelBase res stepLen steering d : ℝ)
    (p0 : ℝ × ℝ × ℝ) : List (ℝ × ℝ × ℝ) :=
  genPosesAux wheelBase steering d
    (substepCount (Real.sqrt 2 * res / stepLen)) p0

/-- Models the steering and travel-distance selection of `Next_node_generator`
(hybrid_a_star.cc lines 137-153) for primitive index `i`: forward with
`+step_size` when `i < next_node_num / 2`, reverse with `−step_size`
otherwise; the steering sweeps uniformly from `−max_steer` to `+max_steer`. -/
noncomputable def primitiveSteer (nextNodeNum : ℕ) (maxSteer stepLen : ℝ)
    (i : ℕ) : ℝ × ℝ :=
  if (i : ℝ) < (nextNodeNum : ℝ) / 2 then
    (-maxSteer + 2 * maxSteer / ((nextNodeNum : ℝ) / 2 - 1) * (i : ℝ), stepLen)
  else
    (-maxSteer + 2 * maxSteer / ((nextNodeNum : ℝ) / 2 - 1) *
      ((i - nextNodeNum / 2 : ℕ) : ℝ), -stepLen)

theorem genPosesAux_length (wb s d : ℝ) (m : ℕ) (p : ℝ × ℝ × ℝ) :
    (genPosesAux wb s d m p).length = m + 1 := by
  induction m generalizing p with
  | zero => rfl
  | succ k ih => simp [genPosesAux, ih]

theorem genPosesAux_getD_zero (wb s d : ℝ) (m : ℕ) (p q : ℝ × ℝ × ℝ) :
    (genPosesAux wb s d m p).getD 0 q = p := by
  cases m <;> rfl

theorem genPosesAux_getD_succ (wb s d : ℝ) (m k : ℕ) (p q : ℝ × ℝ × ℝ)
    (h : k < m) :
    (genPosesAux wb s d m p).getD (k + 1) q =
      bicycleStep wb s d ((genPosesAux wb s d m p).getD k q) := by
  induction m generalizing p k with
  | zero => omega
  | succ n ih =>
    cases k with
    | zero =>
      simp only [genPosesAux, List.getD_cons_succ, List.getD_cons_zero]
      exact genPosesAux_getD_zero wb s d n (bicycleStep wb s d p) q
    | succ j =>
      have hj : j < n := by omega
      simp only [genPosesAux, List.getD_cons_succ]
      exact ih j (bicycleStep wb s d p) hj

/-- C3 (amended): for every current pose and primitive index,
`Next_node_generator` records the current pose as the first entry and then
takes exactly `⌈(√2 · xy_grid_resolution) / step_size⌉` bicycle-model
substeps (the loop counter runs while `i < arc / step_size`), each substep
updating `x` by `d·cos φ`, `y` by `d·sin φ` and `φ` to
`normalize(φ + d·tan(steer)/wheel_base)` with `d = ±step_size`; so the
generated pose sequence has length `⌈arc / step_size⌉ + 1`. -/
theorem c3_theorem (wheelBase res stepLen maxSteer : ℝ) (nextNodeNum i : ℕ)
    (p0 : ℝ × ℝ × ℝ) :
    (nextNodePoses wheelBase res stepLen
        (primitiveSteer nextNodeNum maxSteer stepLen i).1
        (primitiveSteer nextNodeNum maxSteer stepLen i).2 p0).length
        = ⌈Real.sqrt 2 * res / stepLen⌉₊ + 1 ∧
      (nextNodePoses wheelBase res stepLen
        (primitiveSteer nextNodeNum maxSteer stepLen i).1
        (primitiveSteer nextNodeNum maxSteer stepLen i).2 p0).getD 0 p0
        = p0 ∧
      (∀ k < ⌈Real.sqrt 2 * res / stepLen⌉₊,
        (nextNodePoses wheelBase res stepLen
          (primitiveSteer nextNodeNum maxSteer stepLen i).1
          (primitiveSteer nextNodeNum maxSteer stepLen i).2 p0).getD (k + 1) p0
          = bicycleStep wheelBase
              (primitiveSteer nextNodeNum maxSteer stepLen i).1
              (primitiveSteer nextNodeNum maxSteer stepLen i).2
              ((nextNodePoses wheelBase res stepLen
                (primitiveSteer nextNodeNum maxSteer stepLen i).1
                (primitiveSteer nextNodeNum maxSteer stepLen i).2 p0).getD
                  k p0)) ∧
      ((primitiveSteer nextNodeNum maxSteer stepLen i).2 = stepLen ∨
        (primitiveSteer nextNodeNum maxSteer stepLen i).2 = -stepLen) := by
  refine ⟨?_, ?_, ?_, ?_⟩
  · exact genPosesAux_length _ _ _ _ _
  · exact genPosesAux_getD_zero _ _ _ _ _ _
  · intro k hk
    exact genPosesAux_getD_succ _ _ _ _ _ _ _ hk
  · unfold primitiveSteer
    split
    · exact Or.inl rfl
    · exact Or.inr rfl

/-- C3 (counterexample): at `xy_grid_resolution = 1` and `step_size = 1` the
loop takes `⌈√2⌉ = 2` substeps, so `Next_node_generator` produces 3 poses,
while the claimed count `⌊arc / step_size⌋` predicts `⌊√2⌋ + 1 = 2` poses. -/
theorem c3_counterexample :
    (nextNodePoses 1 1 1 0 1 (0, 0, 0)).length = 3 ∧
      ⌊Real.sqrt 2 * 1 / 1⌋₊ + 1 = 2 := by
  have h1 : (1 : ℝ) < Real.sqrt 2 := by
    rw [show (1 : ℝ) = Real.sqrt 1 by simp]
    exact Real.sqrt_lt_sqrt (by norm_num) (by norm_num)
  have h2 : Real.sqrt 2 < 2 := by
    have h4 : Real.sqrt 2 < Real.sqrt 4 :=
      Real.sqrt_lt_sqrt (by norm_num) (by norm_num)
    rw [show (4 : ℝ) = 2 ^ 2 by norm_num,
      Real.sqrt_sq (by norm_num : (0 : ℝ) ≤ 2)] at h4
    exact h4
  have hq : Real.sqrt 2 * 1 / 1 = Real.sqrt 2 := by ring
  constructor
  · unfold nextNodePoses
    rw [genPosesAux_length]
    unfold substepCount
    rw [hq]
    have hc : ⌈Real.sqrt 2⌉₊ = 2 := by
      rw [Nat.ceil_eq_iff (by norm_num)]
      constructor
      · push_cast
        linarith
      · push_cast
        linarith
    omega
  · rw [hq]
    have hf : ⌊Real.sqrt 2⌋₊ = 1 := by
      rw [Nat.floor_eq_iff (Real.sqrt_nonneg 2)]
      constructor
      · push_cast
        linarith
      · push_cast
        linarith
    omega

/-! ### The speed profilers -/

/-- The finite-difference velocity (hybrid_a_star.cc lines 303-308 and
352-356). -/
noncomputable def discreteV (dt : ℝ) (x y phi : List ℝ) (i : ℕ) : ℝ :=
  (x.getD (i + 1) 0 - x.getD i 0) / dt * Real.cos (phi.getD i 0) +
    (y.getD (i + 1) 0 - y.getD i 0) / dt * Real.sin (phi.getD i 0)

/-- The mode-A velocity sequence (hybrid_a_star.cc lines 302-310): the
finite differences followed by a final `0`. -/
noncomputable def gsaV (dt : ℝ) (x y phi : List ℝ) : List ℝ :=
  ((List.range (x.length - 1)).map (discreteV dt x y phi)) ++ [0]

/-- The mode-A acceleration sequence (hybrid_a_star.cc lines 311-315). -/
noncomputable def gsaA (dt : ℝ) (x y phi : List ℝ) : List ℝ :=
  (List.range (x.length - 1)).map fun i =>
    ((gsaV dt x y phi).getD (i + 1) 0 - (gsaV dt x y phi).getD i 0) / dt

/-- The mode-A steering sequence (hybrid_a_star.cc lines 316-326). -/
noncomputable def gsaSteer (wheelBase stepLen dt : ℝ) (x y phi : List ℝ) :
    List ℝ :=
  (List.range (x.length - 1)).map fun i =>
    if (gsaV dt x y phi).getD i 0 > 0 then
      Real.arctan ((phi.getD (i + 1) 0 - phi.getD i 0) * wheelBase / stepLen)
    else
      Real.arctan (-((phi.getD (i + 1) 0 - phi.getD i 0) * wheelBase / stepLen))

/-- Models `HybridAStar::GenerateSpeedAcceleration` (hybrid_a_star.cc lines
296-328): fails exactly when one of the pose sequences has fewer than two
entries; otherwise produces the velocity, acceleration and steering
sequences. -/
noncomputable def GenerateSpeedAcceleration (wheelBase stepLen dt : ℝ)
    (x y phi : List ℝ) : Option (List ℝ × List ℝ × List ℝ) :=
  if x.length < 2 ∨ y.length < 2 ∨ phi.length < 2 then none
  else some (gsaV dt x y phi, gsaA dt x y phi, gsaSteer wheelBase stepLen dt x y phi)

theorem getD_range_map (f : ℕ → ℝ) (m i : ℕ) (h : i < m) :
    ((List.range m).map f).getD i 0 = f i := by
  rw [List.getD_eq_getElem _ _ (by simpa using h)]
  simp

theorem gsaV_length (dt : ℝ) (x y phi : List ℝ) :
    (gsaV dt x y phi).length = (x.length - 1) + 1 := by
  simp [gsaV]

theorem gsaV_getD_last (dt : ℝ) (x y phi : List ℝ) :
    (gsaV dt x y phi).getD (x.length - 1) 0 = 0 := by
  unfold gsaV
  rw [List.getD_append_right _ _ _ _ (by simp)]
  simp

theorem gsaV_getD_lt (dt : ℝ) (x y phi : List ℝ) (i : ℕ)
    (h : i < x.length - 1) :
    (gsaV dt x y phi).getD i 0 = discreteV dt x y phi i := by
  unfold gsaV
  rw [List.getD_append _ _ _ _ (by simpa using h)]
  exact getD_range_map _ _ _ h

/-- C7: in mode A, for every geometric path of `N ≥ 2` poses the profiler
succeeds and produces `v[i] = ((x[i+1]−x[i])/Δt)·cos(φ[i]) +
((y[i+1]−y[i])/Δt)·sin(φ[i])` for `i < N−1` with `v[N−1] = 0`,
`a[i] = (v[i+1]−v[i])/Δt`, and output sizes `|v| = |x|` and
`|a| = |steer| = |x| − 1`. -/
theorem c7_theorem (wheelBase stepLen dt : ℝ) (x y phi : List ℝ) (N : ℕ)
    (hx : x.length = N) (hy : y.length = N) (hphi : phi.length = N)
    (hN : 2 ≤ N) :
    ∃ v a steer,
      GenerateSpeedAcceleration wheelBase stepLen dt x y phi
          = some (v, a, steer) ∧
        v.length = N ∧ a.length = N - 1 ∧ steer.length = N - 1 ∧
        v.getD (N - 1) 0 = 0 ∧
        (∀ i < N - 1, v.getD i 0 =
          (x.getD (i + 1) 0 - x.getD i 0) / dt * Real.cos (phi.getD i 0) +
            (y.getD (i + 1) 0 - y.getD i 0) / dt * Real.sin (phi.getD i 0)) ∧
        (∀ i < N - 1, a.getD i 0 = (v.getD (i + 1) 0 - v.getD i 0) / dt) := by
  refine ⟨gsaV dt x y phi, gsaA dt x y phi,
    gsaSteer wheelBase stepLen dt x y phi, ?_, ?_, ?_, ?_, ?_, ?_, ?_⟩
  · unfold GenerateSpeedAcceleration
    rw [if_neg]
    omega
  · rw [gsaV_length, hx]
    omega
  · simp [gsaA, hx]
  · simp [gsaSteer, hx]
  · rw [← hx]
    exact gsaV_getD_last dt x y phi
  · intro i hi
    rw [gsaV_getD_lt dt x y phi i (by omega)]
    rfl
  · intro i hi
    unfold gsaA
    rw [getD_range_map _ _ _ (by omega)]

/-- C7 (witness): the mode-A profiler evaluated on the two-pose path
`x = [0, 1]`, `y = [0, 0]`, `φ = [0, 0]`. -/
theorem c7_witness :
    ∃ v a steer,
      GenerateSpeedAcceleration 1 1 1 [0, 1] [0, 0] [0, 0]
          = some (v, a, steer) ∧
        v.length = 2 ∧ a.length = 2 - 1 ∧ steer.length = 2 - 1 ∧
        v.getD (2 - 1) 0 = 0 ∧
        (∀ i < 2 - 1, v.getD i 0 =
          (([0, 1] : List ℝ).getD (i + 1) 0 - ([0, 1] : List ℝ).getD i 0) / 1 *
              Real.cos (([0, 0] : List ℝ).getD i 0) +
            (([0, 0] : List ℝ).getD (i + 1) 0 - ([0, 0] : List ℝ).getD i 0) / 1 *
              Real.sin (([0, 0] : List ℝ).getD i 0)) ∧
        (∀ i < 2 - 1, a.getD i 0 = (v.getD (i + 1) 0 - v.getD i 0) / 1) :=
  c7_theorem 1 1 1 [0, 1] [0, 0] [0, 0] 2 rfl rfl rfl (by norm_num)

/-! ### C2: the s-curve first-order bound expression -/

/-- The index of the first minimum of a list, as computed by
`std::min_element`. -/
noncomputable def idxOfMin : List ℝ → Option ℕ
  | [] => none
  | a :: l =>
    match idxOfMin l with
    | none => some 0
    | some j => if l.getD j 0 < a then some (j + 1) else some 0

/-- Models the first-order lower-bound expression
`*(std::min_element(std::begin(result->v), std::end(result->v)) - 10)`
(hybrid_a_star.cc line 411): the iterator to the first minimum is moved ten
positions BACK and then dereferenced.  The read is in range only when the
index of the first minimum is at least 10; `none` models the out-of-range
read, which is undefined behavior in C++. -/
noncomputable def firstOrderLowerBoundCode (v : List ℝ) : Option ℝ :=
  match idxOfMin v with
  | none => none
  | some j => if 10 ≤ j then some (v.getD (j - 10) 0) else none

/-- Modelled from the spec: the intended first-order lower bound
`min(v_ref) − 10` (the spec's corrected parenthesization). -/
noncomputable def firstOrderLowerBoundSpec (v : List ℝ) : Option ℝ :=
  match idxOfMin v with
  | none => none
  | some j => some (v.getD j 0 - 10)

theorem idxOfMin_pair_zero : idxOfMin [(0 : ℝ), 0] = some 0 := by
  have h1 : idxOfMin [(0 : ℝ)] = some 0 := by
    simp [idxOfMin]
  simp [idxOfMin, h1]

/-- Models the mode-B velocity sequence construction (hybrid_a_star.cc lines
344-371): an initial `0` is pushed, then the finite-difference velocities,
and finally `v[x_size − 1]` is overwritten with `0`. -/
noncomputable def modeBVelocity (dt : ℝ) (x y phi : List ℝ) : List ℝ :=
  (0 :: (List.range (x.length - 1)).map (discreteV dt x y phi)).set
    (x.length - 1) 0

/-- C2: on the two-pose path `x = y = φ = [0, 0]` the mode-B velocity
sequence is `[0, 0]`, whose first minimum has index `0 < 10`; the code's
first-order lower-bound expression dereferences
`min_element(v) - 10`, an out-of-range iterator (undefined behavior, modelled
as `none`), instead of the intended value `min(v) − 10 = −10`. -/
theorem c2_theorem :
    modeBVelocity 1 [0, 0] [0, 0] [0, 0] = [0, 0] ∧
      firstOrderLowerBoundCode [0, 0] = none ∧
      firstOrderLowerBoundSpec [0, 0] = some (-10) := by
  refine ⟨?_, ?_, ?_⟩
  · unfold modeBVelocity discreteV
    norm_num [List.range_succ, List.set_cons_succ, List.set_cons_zero]
  · unfold firstOrderLowerBoundCode
    rw [idxOfMin_pair_zero]
    norm_num
  · unfold firstOrderLowerBoundSpec
    rw [idxOfMin_pair_zero]
    norm_num

/-! ### C9: the obstacle segment-construction loop of Plan -/

/-- The bound of the segment-construction loop `for (size_t i = 0;
i < vertices_num - 1; ++i)` (hybrid_a_star.cc line 466): `vertices_num - 1`
computed in `size_t` arithmetic. -/
def segmentLoopBound (verticesNum : ℕ) : ℕ := sizeTSub1 verticesNum

/-- Every iteration of the segment loop reads `obstacle_vertices[i]` and
`obstacle_vertices[i + 1]` (hybrid_a_star.cc lines 467-468); the accesses
are in range exactly when `i + 1 < vertices_num`. -/
def segmentAccessOk (verticesNum : ℕ) : Prop :=
  ∀ i < segmentLoopBound verticesNum, i + 1 < verticesNum

/-- The segments the loop builds (when every access is in range): the
consecutive vertex pairs of the open polyline. -/
def buildSegments (vs : List (ℚ × ℚ)) : List ((ℚ × ℚ) × (ℚ × ℚ)) :=
  (List.range (segmentLoopBound vs.length)).map fun i =>
    (vs.getD i (0, 0), vs.getD (i + 1) (0, 0))

/-- C9: for an empty vertex list (`n = 0`) the `size_t` loop bound
`vertices_num − 1` wraps to `2^64 − 1` and already the first iteration reads
`obstacle_vertices[0]` and `obstacle_vertices[1]` out of range (undefined
behavior), contradicting the claim for `n = 0`; for `n ≥ 1` the bound is
`n − 1`, every access is in range, and (shown on a concrete three-vertex
obstacle) the loop builds exactly the `n − 1` consecutive open-polyline
segments. -/
theorem c9_theorem :
    segmentLoopBound 0 = 2 ^ 64 - 1 ∧
      ¬ segmentAccessOk 0 ∧
      buildSegments [(0, 0), (1, 0), (1, 1)] =
        [((0, 0), (1, 0)), ((1, 0), (1, 1))] := by
  have h0 : segmentLoopBound 0 = 2 ^ 64 - 1 := by
    unfold segmentLoopBound sizeTSub1
    omega
  refine ⟨h0, ?_, ?_⟩
  · intro h
    have h1 := h 0 (by omega)
    omega
  · have h3 : segmentLoopBound 3 = 2 := by
      unfold segmentLoopBound sizeTSub1
      omega
    unfold buildSegments
    rw [show ([((0 : ℚ), (0 : ℚ)), (1, 0), (1, 1)]).length = 3 from rfl, h3]
    rfl

/-! ### C8: path reconstruction in GetResult -/

/-- A search node with its parent back-reference, as consumed by the
reconstruction loop of `GetResult` (hybrid_a_star.cc lines 230-259); the
inductive structure makes the parent chain acyclic by construction, and the
stored pose sequences are in traversal order as built by
`Next_node_generator`. -/
inductive RNode : Type
  | mk : List ℚ → List ℚ → List ℚ → Option RNode → RNode

def RNode.xs : RNode → List ℚ
  | .mk a _ _ _ => a

def RNode.ys : RNode → List ℚ
  | .mk _ b _ _ => b

def RNode.phis : RNode → List ℚ
  | .mk _ _ c _ => c

def RNode.pre : RNode → Option RNode
  | .mk _ _ _ p => p

/-- The chain of parent links from a node down to the root (start) node. -/
def RNode.chain : RNode → List RNode
  | .mk a b c none => [.mk a b c none]
  | .mk a b c (some p) => .mk a b c (some p) :: p.chain

/-- The root (start) node of a parent chain. -/
def RNode.root : RNode → RNode
  | .mk a b c none => .mk a b c none
  | .mk _ _ _ (some p) => p.root

/-- The accumulation loop of `GetResult` (hybrid_a_star.cc lines 231-256):
walking from the final node down the parent links, every node that has a
parent contributes its stored sequences reversed with the last element
popped (`std::reverse` followed by `pop_back`), and the root contributes its
single representative pose; `none` models the `x.empty()` early `false`
return. -/
def reconAux : RNode → Option (List ℚ × List ℚ × List ℚ)
  | .mk a b c none =>
    some ([a.getLastD 0], [b.getLastD 0], [c.getLastD 0])
  | .mk a b c (some p) =>
    if a.isEmpty || b.isEmpty || c.isEmpty then none
    else
      (reconAux p).map fun t =>
        (a.reverse.dropLast ++ t.1, b.reverse.dropLast ++ t.2.1,
          c.reverse.dropLast ++ t.2.2)

/-- Models the reconstruction of `GetResult` (hybrid_a_star.cc lines
231-259): the accumulated sequences are reversed at the end to run
start→goal. -/
def recon (n : RNode) : Option (List ℚ × List ℚ × List ℚ) :=
  (reconAux n).map fun t => (t.1.reverse, t.2.1.reverse, t.2.2.reverse)

/-- The claimed start→goal sequence for one coordinate (`get`): the root's
representative value followed, parent before child, by every other node's
stored sequence without its first element (the pose shared with its
parent). -/
def spine (get : RNode → List ℚ) : RNode → List ℚ
  | .mk a b c none => [(get (.mk a b c none)).getLastD 0]
  | .mk a b c (some p) => spine get p ++ (get (.mk a b c (some p))).drop 1

theorem reverse_dropLast_reverse (l : List ℚ) :
    l.reverse.dropLast.reverse = l.drop 1 := by
  cases l with
  | nil => rfl
  | cons a t => simp [List.reverse_cons, List.dropLast_concat]

theorem isEmpty_false_of_ne_nil {l : List ℚ} (h : l ≠ []) :
    l.isEmpty = false := by
  cases l with
  | nil => exact absurd rfl h
  | cons a t => rfl

theorem headD_append_of_ne_nil (l m : List ℚ) (d : ℚ) (h : l ≠ []) :
    (l ++ m).headD d = l.headD d := by
  cases l with
  | nil => exact absurd rfl h
  | cons a t => rfl

theorem getLastD_append_of_ne_nil (l m : List ℚ) (d : ℚ) (h : m ≠ []) :
    (l ++ m).getLastD d = m.getLastD d := by
  induction l with
  | nil => rfl
  | cons a t ih =>
    cases t with
    | nil =>
      cases m with
      | nil => exact absurd rfl h
      | cons b u => simp [List.getLastD_cons]
    | cons b u =>
      simp only [List.cons_append, List.getLastD_cons] at ih ⊢
      exact ih

theorem getLastD_drop_one (l : List ℚ) (h : l.drop 1 ≠ []) :
    (l.drop 1).getLastD 0 = l.getLastD 0 := by
  cases l with
  | nil => exact absurd rfl h
  | cons a t =>
    simp only [List.drop_one, List.tail_cons] at h ⊢
    cases t with
    | nil => exact absurd rfl h
    | cons b u => simp [List.getLastD_cons]

theorem chain_mem_self (n : RNode) : n ∈ n.chain := by
  cases n with
  | mk a b c p =>
    cases p with
    | none => simp [RNode.chain]
    | some q => simp [RNode.chain]

theorem chain_mem_of_pre (a b c : List ℚ) (p : RNode) (m : RNode)
    (h : m ∈ p.chain) : m ∈ (RNode.mk a b c (some p)).chain := by
  simp only [RNode.chain, List.mem_cons]
  exact Or.inr h

theorem recon_eq_spine : ∀ n : RNode,
    (∀ m ∈ n.chain, m.pre ≠ none → m.xs ≠ [] ∧ m.ys ≠ [] ∧ m.phis ≠ []) →
    recon n = some (spine RNode.xs n, spine RNode.ys n, spine RNode.phis n)
  | .mk a b c none, _ => by
    simp [recon, reconAux, spine, RNode.xs, RNode.ys, RNode.phis]
  | .mk a b c (some p), h => by
    obtain ⟨ha, hb, hc⟩ :=
      h _ (chain_mem_self _) (by simp [RNode.pre])
    simp only [RNode.xs, RNode.ys, RNode.phis] at ha hb hc
    have hsub : ∀ m ∈ p.chain, m.pre ≠ none →
        m.xs ≠ [] ∧ m.ys ≠ [] ∧ m.phis ≠ [] := fun m hm =>
      h m (chain_mem_of_pre a b c p m hm)
    have ih := recon_eq_spine p hsub
    obtain ⟨tp, htp⟩ : ∃ tp, reconAux p = some tp := by
      cases hrp : reconAux p with
      | none => rw [recon, hrp] at ih; exact absurd ih (by simp)
      | some tp => exact ⟨tp, rfl⟩
    rw [recon, htp] at ih
    simp only [Option.map_some', Option.some_inj, Prod.mk.injEq] at ih
    obtain ⟨ih1, ih2, ih3⟩ := ih
    rw [recon]
    simp only [reconAux, isEmpty_false_of_ne_nil ha,
      isEmpty_false_of_ne_nil hb, isEmpty_false_of_ne_nil hc,
      Bool.or_self, Bool.or_false, Bool.false_eq_true, if_false, htp,
      Option.map_some', Option.some_inj, Prod.mk.injEq]
    refine ⟨?_, ?_, ?_⟩ <;>
      simp only [spine, RNode.xs, RNode.ys, RNode.phis, List.reverse_append,
        reverse_dropLast_reverse, ih1, ih2, ih3]

theorem spine_ne_nil (get : RNode → List ℚ) : ∀ n : RNode, spine get n ≠ []
  | .mk a b c none => by simp [spine]
  | .mk a b c (some p) => by
    have h := spine_ne_nil get p
    simp only [spine]
    intro hcontra
    exact h (List.append_eq_nil.mp hcontra).1

theorem spine_headD (get : RNode → List ℚ) : ∀ n : RNode,
    (spine get n).headD 0 = (get n.root).getLastD 0
  | .mk a b c none => by simp [spine, RNode.root]
  | .mk a b c (some p) => by
    have ih := spine_headD get p
    simp only [spine, RNode.root]
    rw [headD_append_of_ne_nil _ _ _ (spine_ne_nil get p)]
    exact ih

theorem spine_getLastD (get : RNode → List ℚ) : ∀ n : RNode,
    (∀ m ∈ n.chain, ∀ q, m.pre = some q →
      get m ≠ [] ∧ (get m).headD 0 = (get q).getLastD 0) →
    (spine get n).getLastD 0 = (get n).getLastD 0
  | .mk a b c none, _ => by
    simp [spine]
  | .mk a b c (some p), h => by
    obtain ⟨hne, hshare⟩ :=
      h _ (chain_mem_self _) p (by simp [RNode.pre])
    have hsub : ∀ m ∈ p.chain, ∀ q, m.pre = some q →
        get m ≠ [] ∧ (get m).headD 0 = (get q).getLastD 0 := fun m hm =>
      h m (chain_mem_of_pre a b c p m hm)
    have ih := spine_getLastD get p hsub
    simp only [spine]
    by_cases hd : (get (RNode.mk a b c (some p))).drop 1 = []
    · rw [hd, List.append_nil, ih, ← hshare]
      obtain ⟨x, hx⟩ : ∃ x, get (RNode.mk a b c (some p)) = [x] := by
        cases hg : get (RNode.mk a b c (some p)) with
        | nil => exact absurd hg hne
        | cons x t =>
          cases t with
          | nil => exact ⟨x, rfl⟩
          | cons y u => rw [hg] at hd; simp at hd
      rw [hx]
      rfl
    · rw [getLastD_append_of_ne_nil _ _ _ hd, getLastD_drop_one _ hd]

/-- C8: for every final node whose (acyclic, inductively represented) parent
chain ends at the start node, the reconstruction of `GetResult` succeeds and
produces exactly the start→goal sequence in which the root contributes its
representative pose and every other chain node contributes its traversal
sequence without its first pose — so each pose shared between consecutive
nodes appears exactly once — and whose first pose is the start node's pose
and whose last pose is the final node's terminal pose.  Hypothesis: every
non-root chain node has nonempty pose sequences whose first pose equals its
parent's last pose (true by construction of successor and analytic-curve
nodes). -/
theorem c8_theorem (n : RNode)
    (h : ∀ m ∈ n.chain, ∀ q, m.pre = some q →
      (m.xs ≠ [] ∧ m.xs.headD 0 = q.xs.getLastD 0) ∧
      (m.ys ≠ [] ∧ m.ys.headD 0 = q.ys.getLastD 0) ∧
      (m.phis ≠ [] ∧ m.phis.headD 0 = q.phis.getLastD 0)) :
    recon n = some (spine RNode.xs n, spine RNode.ys n, spine RNode.phis n) ∧
      (spine RNode.xs n).headD 0 = n.root.xs.getLastD 0 ∧
      (spine RNode.ys n).headD 0 = n.root.ys.getLastD 0 ∧
      (spine RNode.phis n).headD 0 = n.root.phis.getLastD 0 ∧
      (spine RNode.xs n).getLastD 0 = n.xs.getLastD 0 ∧
      (spine RNode.ys n).getLastD 0 = n.ys.getLastD 0 ∧
      (spine RNode.phis n).getLastD 0 = n.phis.getLastD 0 := by
  have h1 : ∀ m ∈ n.chain, m.pre ≠ none →
      m.xs ≠ [] ∧ m.ys ≠ [] ∧ m.phis ≠ [] := by
    intro m hm hp
    cases hq : m.pre with
    | none => exact absurd hq hp
    | some q =>
      obtain ⟨⟨hx, _⟩, ⟨hy, _⟩, ⟨hz, _⟩⟩ := h m hm q hq
      exact ⟨hx, hy, hz⟩
  refine ⟨recon_eq_spine n h1, spine_headD _ n, spine_headD _ n,
    spine_headD _ n, ?_, ?_, ?_⟩
  · exact spine_getLastD RNode.xs n fun m hm q hq => (h m hm q hq).1
  · exact spine_getLastD RNode.ys n fun m hm q hq => (h m hm q hq).2.1
  · exact spine_getLastD RNode.phis n fun m hm q hq => (h m hm q hq).2.2

/-- The start node of the concrete witness chain: a single pose. -/
def demoRoot : RNode := RNode.mk [0] [0] [0] none

/-- A successor node whose traversal starts at the root's pose. -/
def demoChild : RNode := RNode.mk [0, 1] [0, 2] [0, 3] (some demoRoot)

/-- C8 (witness): the reconstruction theorem instantiated on a two-node
chain. -/
theorem c8_witness :
    recon demoChild = some (spine RNode.xs demoChild,
        spine RNode.ys demoChild, spine RNode.phis demoChild) ∧
      (spine RNode.xs demoChild).headD 0 = demoChild.root.xs.getLastD 0 ∧
      (spine RNode.ys demoChild).headD 0 = demoChild.root.ys.getLastD 0 ∧
      (spine RNode.phis demoChild).headD 0
          = demoChild.root.phis.getLastD 0 ∧
      (spine RNode.xs demoChild).getLastD 0 = demoChild.xs.getLastD 0 ∧
      (spine RNode.ys demoChild).getLastD 0 = demoChild.ys.getLastD 0 ∧
      (spine RNode.phis demoChild).getLastD 0
          = demoChild.phis.getLastD 0 := by
  refine c8_theorem demoChild ?_
  intro m hm q hq
  simp only [demoChild, demoRoot, RNode.chain, List.mem_cons,
    List.mem_singleton, List.not_mem_nil, or_false] at hm
  rcases hm with hm | hm
  · subst hm
    simp only [RNode.pre, Option.some_inj] at hq
    subst hq
    refine ⟨⟨by decide, by decide⟩, ⟨by decide, by decide⟩,
      ⟨by decide, by decide⟩⟩
  · subst hm
    simp [RNode.pre] at hq

/-! ### The main search loop of Plan (C5, C10) -/

/-- Modelled from the spec: `Node3d::GetIndex()` quantizes the representative
(last) pose by the grid resolutions over the workspace and combines the three
quantized values into a key; only key equality matters to the loop. -/
def getIndex (res phiRes : ℚ) (b : XYBounds) (x y phi : ℚ) : ℤ × ℤ × ℤ :=
  (⌊(x - b.xmin) / res⌋, ⌊(y - b.ymin) / res⌋, ⌊phi / phiRes⌋)

/-- Association-list lookup, modelling `std::map::find`. -/
def lookupA {β : Type} : List ((ℤ × ℤ × ℤ) × β) → (ℤ × ℤ × ℤ) → Option β
  | [], _ => none
  | (k, v) :: rest, q => if k = q then some v else lookupA rest q

/-- Membership in a `std::map` (`find() != end()`). -/
def containsA {β : Type} (l : List ((ℤ × ℤ × ℤ) × β)) (k : ℤ × ℤ × ℤ) :
    Bool :=
  (lookupA l k).isSome

/-- Models `std::map::insert` / `emplace`: no overwrite of an existing key. -/
def insertA {β : Type} (l : List ((ℤ × ℤ × ℤ) × β)) (k : ℤ × ℤ × ℤ)
    (v : β) : List ((ℤ × ℤ × ℤ) × β) :=
  if (lookupA l k).isSome then l else l ++ [(k, v)]

/-- Models `open_pq_.top()` followed by `open_pq_.pop()`: removes the first entry
of minimal cost (a `std::priority_queue` with a lowest-cost-first
comparator). -/
def pqPop : List ((ℤ × ℤ × ℤ) × ℚ) →
    Option (((ℤ × ℤ × ℤ) × ℚ) × List ((ℤ × ℤ × ℤ) × ℚ))
  | [] => none
  | e :: rest =>
    match pqPop rest with
    | none => some (e, [])
    | some (m, rest') =>
      if e.2 ≤ m.2 then some (e, rest) else some (m, e :: rest')

/-- The collaborators and configuration of `Plan`'s main loop
(hybrid_a_star.cc lines 506-545).  `shortestRSP` abstracts
`ReedShepp::ShortestRSP` toward the fixed end node, `nextNodeGen` abstracts
`Next_node_generator` (including its out-of-bounds rejection returning
null), and `checkDpMap` abstracts `GridSearch::CheckDpMap`; these
collaborators are outside this translation unit or modelled elsewhere in
this file. -/
structure PlanEnv (α : Type) where
  nextNodeNum : ℕ
  bounds : XYBounds
  costParams : CostParams
  hasOverlap : ℚ → ℚ → ℚ → α → Bool
  obstacles : List (List α)
  shortestRSP : Node3d → Option (List ℚ × List ℚ × List ℚ)
  nextNodeGen : Node3d → ℕ → Option Node3d
  checkDpMap : ℚ → ℚ → ℚ
  getIndexFn : ℚ → ℚ → ℚ → ℤ × ℤ × ℤ

/-- Models `Node3d::GetIndex()`: a function of the representative (last) pose only;
the concrete quantizer is `getIndex`, but the loop depends only on key
equality, so the invariants are proved for an arbitrary pose-indexed key
function `env.getIndexFn`. -/
def envIndex (env : PlanEnv α) (n : Node3d) : ℤ × ℤ × ℤ :=
  env.getIndexFn n.x n.y n.phi

/-- The default-constructed `Node3d` that `open_set_[current_id]` would
produce for an absent key (C10 shows the key is never absent). -/
def defaultNode : Node3d := ⟨[], [], [], false, 0, 0, 0⟩

/-- Models `HybridAStar::CalculateNodeCost` (hybrid_a_star.cc lines
195-203). -/
def CalculateNodeCost (env : PlanEnv α) (current next : Node3d) : Node3d :=
  { next with
    trajCost := current.trajCost + TrajCost env.costParams current next,
    heuCost := env.checkDpMap next.x next.y }

/-- Models `HybridAStar::AnalyticExpansion` with `RSPCheck` and
`LoadRSPinCS` (hybrid_a_star.cc lines 56-81 and 124-133): on Reeds-Shepp
success the candidate path is loaded into a node and validity-checked; the
returned node is the final node (its direction, steer and costs are the
`Node3d` constructor defaults, which the loop never reads). -/
def AnalyticExpansion (env : PlanEnv α) (current : Node3d) : Option Node3d :=
  match env.shortestRSP current with
  | none => none
  | some (xs, ys, phis) =>
    let nd : Node3d := ⟨xs, ys, phis, true, 0, 0, 0⟩
    if ValidityCheck env.hasOverlap env.obstacles env.bounds nd then some nd
    else none

/-- The mutable state of `Plan`'s main loop, with ghost histories: `pushed`
records every key ever pushed onto `open_pq_`, `popped` every key popped
from it, and `expanded` every key for which the successor loop was
entered. -/
structure PlanState (α : Type) where
  openPq : List ((ℤ × ℤ × ℤ) × ℚ)
  openSet : List ((ℤ × ℤ × ℤ) × Node3d)
  closeSet : List ((ℤ × ℤ × ℤ) × Node3d)
  finalNode : Option Node3d
  pushed : List (ℤ × ℤ × ℤ)
  popped : List (ℤ × ℤ × ℤ)
  expanded : List (ℤ × ℤ × ℤ)

/-- The body of the successor loop (hybrid_a_star.cc lines 521-544) for one
primitive index: generate, then skip on null, on a closed-set hit, on a
validity failure, or on an open-set hit; otherwise compute the cost and
insert into `open_set_` and push onto `open_pq_`. -/
def expandOne (env : PlanEnv α) (cur : Node3d) (s : PlanState α) (i : ℕ) :
    PlanState α :=
  match env.nextNodeGen cur i with
  | none => s
  | some nn =>
    if containsA s.closeSet (envIndex env nn) then s
    else if ValidityCheck env.hasOverlap env.obstacles env.bounds nn = false
      then s
    else if containsA s.openSet (envIndex env nn) then s
    else
      let nn' := CalculateNodeCost env cur nn
      { s with
        openSet := insertA s.openSet (envIndex env nn') nn',
        openPq := s.openPq ++ [(envIndex env nn', nn'.cost)],
        pushed := s.pushed ++ [envIndex env nn'] }

/-- One iteration of `Plan`'s `while (!open_pq_.empty())` loop
(hybrid_a_star.cc lines 506-545): pop the lowest-cost entry, look its node
up in `open_set_`, attempt the analytic expansion (on success the final node
is loaded into the closed set and the loop will exit), otherwise insert the
current node into the closed set and run the successor loop.  No closed-set
membership test is performed on the popped entry itself. -/
def planStep (env : PlanEnv α) (st : PlanState α) : PlanState α :=
  match pqPop st.openPq with
  | none => st
  | some (e, pq') =>
    let cur := (lookupA st.openSet e.1).getD defaultNode
    let st1 : PlanState α :=
      { st with openPq := pq', popped := st.popped ++ [e.1] }
    match AnalyticExpansion env cur with
    | some fn =>
      { st1 with
        closeSet := insertA st1.closeSet (envIndex env fn) fn,
        finalNode := some fn }
    | none =>
      let st2 : PlanState α :=
        { st1 with
          closeSet := insertA st1.closeSet (envIndex env cur) cur,
          expanded := st1.expanded ++ [envIndex env cur] }
      (List.range env.nextNodeNum).foldl (expandOne env cur) st2

/-- The loop of `Plan` with explicit fuel; it stops when the queue is empty
or when a final node was produced (the `break`). -/
def planRun (env : PlanEnv α) : ℕ → PlanState α → PlanState α
  | 0, st => st
  | f + 1, st =>
    if st.openPq.isEmpty then st
    else if st.finalNode.isSome then st
    else planRun env f (planStep env st)

/-- The initial state built by `Plan` (hybrid_a_star.cc lines 494-497): the
start node is inserted into `open_set_` and pushed onto `open_pq_`. -/
def planInit (env : PlanEnv α) (start : Node3d) : PlanState α :=
  { openPq := [(envIndex env start, start.cost)],
    openSet := [(envIndex env start, start)],
    closeSet := [],
    finalNode := none,
    pushed := [envIndex env start],
    popped := [],
    expanded := [] }

/-! ### Lemmas about the container models -/

theorem lookupA_isSome_iff {β : Type} (l : List ((ℤ × ℤ × ℤ) × β))
    (k : ℤ × ℤ × ℤ) :
    (lookupA l k).isSome = true ↔ k ∈ l.map Prod.fst := by
  induction l with
  | nil => simp [lookupA]
  | cons e rest ih =>
    obtain ⟨k', v⟩ := e
    simp only [lookupA, List.map_cons, List.mem_cons]
    by_cases h : k' = k
    · subst h
      simp
    · rw [if_neg h, ih]
      constructor
      · exact Or.inr
      · rintro (h' | h')
        · exact absurd h'.symm h
        · exact h'

theorem lookupA_mem {β : Type} (l : List ((ℤ × ℤ × ℤ) × β))
    (k : ℤ × ℤ × ℤ) (v : β) (h : lookupA l k = some v) : (k, v) ∈ l := by
  induction l with
  | nil => simp [lookupA] at h
  | cons e rest ih =>
    obtain ⟨k', v'⟩ := e
    simp only [lookupA] at h
    by_cases hk : k' = k
    · subst hk
      rw [if_pos rfl] at h
      obtain rfl : v' = v := Option.some_inj.mp h
      exact List.mem_cons_self _ _
    · rw [if_neg hk] at h
      exact List.mem_cons_of_mem _ (ih h)

theorem lookupA_isSome_mono {β : Type} (l m : List ((ℤ × ℤ × ℤ) × β))
    (k : ℤ × ℤ × ℤ) (h : (lookupA l k).isSome = true) :
    (lookupA (l ++ m) k).isSome = true := by
  rw [lookupA_isSome_iff] at h ⊢
  rw [List.map_append, List.mem_append]
  exact Or.inl h

theorem insertA_isSome {β : Type} (l : List ((ℤ × ℤ × ℤ) × β))
    (k k' : ℤ × ℤ × ℤ) (v : β) (h : (lookupA l k').isSome = true) :
    (lookupA (insertA l k v) k').isSome = true := by
  unfold insertA
  split
  · exact h
  · exact lookupA_isSome_mono l [(k, v)] k' h

theorem insertA_isSome_self {β : Type} (l : List ((ℤ × ℤ × ℤ) × β))
    (k : ℤ × ℤ × ℤ) (v : β) :
    (lookupA (insertA l k v) k).isSome = true := by
  unfold insertA
  split
  · assumption
  · rw [lookupA_isSome_iff]
    simp

theorem insertA_mem {β : Type} (l : List ((ℤ × ℤ × ℤ) × β))
    (k : ℤ × ℤ × ℤ) (v : β) (e : (ℤ × ℤ × ℤ) × β)
    (h : e ∈ insertA l k v) : e ∈ l ∨ e = (k, v) := by
  unfold insertA at h
  split at h
  · exact Or.inl h
  · rw [List.mem_append] at h
    rcases h with h | h
    · exact Or.inl h
    · simp only [List.mem_singleton] at h
      exact Or.inr h

theorem insertA_keys {β : Type} (l : List ((ℤ × ℤ × ℤ) × β))
    (k : ℤ × ℤ × ℤ) (v : β) (k' : ℤ × ℤ × ℤ)
    (h : k' ∈ (insertA l k v).map Prod.fst) :
    k' ∈ l.map Prod.fst ∨ k' = k := by
  rw [List.mem_map] at h
  obtain ⟨e, he, rfl⟩ := h
  rcases insertA_mem l k v e he with h | h
  · exact Or.inl (List.mem_map_of_mem Prod.fst h)
  · subst h
    exact Or.inr rfl

theorem pqPop_ne_none (e : (ℤ × ℤ × ℤ) × ℚ)
    (rest : List ((ℤ × ℤ × ℤ) × ℚ)) : pqPop (e :: rest) ≠ none := by
  simp only [pqPop]
  cases pqPop rest with
  | none => simp
  | some mr =>
    obtain ⟨m, r'⟩ := mr
    by_cases h : e.2 ≤ m.2 <;> simp [h]

theorem pqPop_perm : ∀ (l : List ((ℤ × ℤ × ℤ) × ℚ)) e r,
    pqPop l = some (e, r) → l.Perm (e :: r)
  | [], e, r, h => by simp [pqPop] at h
  | x :: rest, e, r, h => by
    cases hrest : pqPop rest with
    | none =>
      have hnil : rest = [] := by
        cases rest with
        | nil => rfl
        | cons y t => exact absurd hrest (pqPop_ne_none y t)
      subst hnil
      simp only [pqPop] at h
      injection h with h2
      cases h2
      exact List.Perm.refl _
    | some mr =>
      obtain ⟨m, r'⟩ := mr
      simp only [pqPop, hrest] at h
      by_cases hle : x.2 ≤ m.2
      · rw [if_pos hle] at h
        injection h with h2
        cases h2
        exact List.Perm.refl _
      · rw [if_neg hle] at h
        injection h with h2
        have he : m = e := congrArg Prod.fst h2
        have hr : x :: r' = r := congrArg Prod.snd h2
        subst he
        subst hr
        have ihp := pqPop_perm rest m r' hrest
        exact List.Perm.trans (List.Perm.cons x ihp) (List.Perm.swap m x r')

theorem foldl_preserve {σ : Type} {P : σ → Prop} (f : σ → ℕ → σ)
    (h : ∀ s i, P s → P (f s i)) :
    ∀ (l : List ℕ) (s : σ), P s → P (l.foldl f s)
  | [], _, hs => hs
  | i :: t, s, hs => foldl_preserve f h t (f s i) (h s i hs)

theorem nodup_append_singleton {l : List (ℤ × ℤ × ℤ)} {k : ℤ × ℤ × ℤ}
    (h : l.Nodup) (hk : k ∉ l) : (l ++ [k]).Nodup := by
  simp [List.nodup_append, h, hk]

theorem envIndex_calc (env : PlanEnv α) (cur nn : Node3d) :
    envIndex env (CalculateNodeCost env cur nn) = envIndex env nn := rfl

/-! ### The loop invariant -/

/-- The invariant of `Plan`'s main loop: pushed keys are pairwise distinct,
every pushed key is (and stays) a key of `open_set_` with its stored node
indexed consistently, the queue's keys together with the popped history are
a permutation of the pushed history, the expanded history is a sub-history
of the popped one, and (while no final node exists) every closed key has
been popped. -/
structure Inv (env : PlanEnv α) (st : PlanState α) : Prop where
  pushedNodup : st.pushed.Nodup
  pushedInOpen : ∀ k ∈ st.pushed, (lookupA st.openSet k).isSome = true
  pqPerm : (st.openPq.map Prod.fst ++ st.popped).Perm st.pushed
  openKeysOk : ∀ e ∈ st.openSet, envIndex env e.2 = e.1
  expandedSub : st.expanded.Sublist st.popped
  closePopped : st.finalNode = none →
    ∀ k ∈ st.closeSet.map Prod.fst, k ∈ st.popped

theorem inv_expandOne (env : PlanEnv α) (cur : Node3d) (s : PlanState α)
    (i : ℕ) (h : Inv env s) : Inv env (expandOne env cur s i) := by
  cases hg : env.nextNodeGen cur i with
  | none =>
    simp only [expandOne, hg]
    exact h
  | some nn =>
    simp only [expandOne, hg]
    by_cases hclose : containsA s.closeSet (envIndex env nn) = true
    · rw [if_pos hclose]
      exact h
    · rw [if_neg hclose]
      by_cases hvc :
          ValidityCheck env.hasOverlap env.obstacles env.bounds nn = false
      · rw [if_pos hvc]
        exact h
      · rw [if_neg hvc]
        by_cases hopen : containsA s.openSet (envIndex env nn) = true
        · rw [if_pos hopen]
          exact h
        · rw [if_neg hopen]
          have hknotin : envIndex env nn ∉ s.pushed := by
            intro hmem
            exact hopen (h.pushedInOpen _ hmem)
          refine ⟨?_, ?_, ?_, ?_, ?_, ?_⟩
          · rw [envIndex_calc]
            exact nodup_append_singleton h.pushedNodup hknotin
          · intro k hk
            rw [envIndex_calc] at hk ⊢
            rw [List.mem_append, List.mem_singleton] at hk
            rcases hk with hk | hk
            · exact insertA_isSome _ _ _ _ (h.pushedInOpen k hk)
            · subst hk
              exact insertA_isSome_self _ _ _
          · rw [envIndex_calc]
            simp only [List.map_append, List.map_cons, List.map_nil]
            have base := h.pqPerm
            have p1 : ((s.openPq.map Prod.fst ++ [envIndex env nn])
                ++ s.popped).Perm
                (s.openPq.map Prod.fst ++ (s.popped ++ [envIndex env nn])) := by
              rw [List.append_assoc]
              exact List.Perm.append_left _ List.perm_append_comm
            have p2 : (s.openPq.map Prod.fst
                ++ (s.popped ++ [envIndex env nn])).Perm
                (s.pushed ++ [envIndex env nn]) := by
              rw [← List.append_assoc]
              exact List.Perm.append_right _ base
            exact p1.trans p2
          · intro e he
            rcases insertA_mem _ _ _ _ he with he | he
            · exact h.openKeysOk e he
            · subst he
              exact envIndex_calc env cur nn
          · exact h.expandedSub
          · exact h.closePopped

theorem inv_planStep (env : PlanEnv α) (st : PlanState α) (h : Inv env st) :
    Inv env (planStep env st) := by
  cases hpq : pqPop st.openPq with
  | none =>
    simp only [planStep, hpq]
    exact h
  | some er =>
    obtain ⟨e, pq'⟩ := er
    have hperm : st.openPq.Perm (e :: pq') := pqPop_perm _ _ _ hpq
    have hkeysperm : (st.openPq.map Prod.fst).Perm (e.1 :: pq'.map Prod.fst) :=
      hperm.map Prod.fst
    have hkpushed : e.1 ∈ st.pushed := by
      refine h.pqPerm.subset ?_
      rw [List.mem_append]
      exact Or.inl (hkeysperm.mem_iff.mpr (List.mem_cons_self _ _))
    have hlook : (lookupA st.openSet e.1).isSome = true :=
      h.pushedInOpen _ hkpushed
    obtain ⟨cur0, hcur0⟩ := Option.isSome_iff_exists.mp hlook
    have hcurd : (lookupA st.openSet e.1).getD defaultNode = cur0 := by
      rw [hcur0]
      rfl
    have hcuridx : envIndex env cur0 = e.1 :=
      h.openKeysOk (e.1, cur0) (lookupA_mem _ _ _ hcur0)
    have hpqperm1 :
        (pq'.map Prod.fst ++ (st.popped ++ [e.1])).Perm st.pushed := by
      have base := h.pqPerm
      have p1 : (pq'.map Prod.fst ++ (st.popped ++ [e.1])).Perm
          ((e.1 :: pq'.map Prod.fst) ++ st.popped) := by
        have q2 : (pq'.map Prod.fst ++ (st.popped ++ [e.1])).Perm
            (pq'.map Prod.fst ++ ([e.1] ++ st.popped)) :=
          List.Perm.append_left _ List.perm_append_comm
        refine q2.trans ?_
        rw [← List.append_assoc]
        exact List.Perm.append_right _ List.perm_append_comm
      have p2 : ((e.1 :: pq'.map Prod.fst) ++ st.popped).Perm
          (st.openPq.map Prod.fst ++ st.popped) :=
        List.Perm.append_right _ hkeysperm.symm
      exact (p1.trans p2).trans base
    simp only [planStep, hpq, hcurd]
    cases han : AnalyticExpansion env cur0 with
    | some fn =>
      simp only [han]
      refine ⟨h.pushedNodup, ?_, ?_, ?_, ?_, ?_⟩
      · exact h.pushedInOpen
      · exact hpqperm1
      · exact h.openKeysOk
      · exact h.expandedSub.trans (List.sublist_append_left _ _)
      · intro hfin
        simp at hfin
    | none =>
      simp only [han]
      refine foldl_preserve (expandOne env cur0) (inv_expandOne env cur0)
        (List.range env.nextNodeNum) _ ?_
      refine ⟨h.pushedNodup, ?_, ?_, ?_, ?_, ?_⟩
      · exact h.pushedInOpen
      · exact hpqperm1
      · exact h.openKeysOk
      · rw [hcuridx]
        exact h.expandedSub.append (List.Sublist.refl [e.1])
      · intro hfin k hk
        rcases insertA_keys _ _ _ _ hk with hk | hk
        · rw [List.mem_append]
          exact Or.inl (h.closePopped hfin k hk)
        · rw [hcuridx] at hk
          subst hk
          rw [List.mem_append, List.mem_singleton]
          exact Or.inr rfl

theorem inv_planInit (env : PlanEnv α) (start : Node3d) :
    Inv env (planInit env start) := by
  refine ⟨?_, ?_, ?_, ?_, ?_, ?_⟩
  · simp [planInit]
  · intro k hk
    simp only [planInit, List.mem_singleton] at hk
    subst hk
    simp [lookupA]
  · simp [planInit]
  · intro e he
    simp only [planInit, List.mem_singleton] at he
    subst he
    rfl
  · simp [planInit]
  · intro _ k hk
    simp [planInit] at hk

theorem inv_planRun (env : PlanEnv α) : ∀ (fuel : ℕ) (st : PlanState α),
    Inv env st → Inv env (planRun env fuel st)
  | 0, _, h => h
  | f + 1, st, h => by
    unfold planRun
    split
    · exact h
    · split
      · exact h
      · exact inv_planRun env f _ (inv_planStep env st h)

/-! ### C10 and C5 -/

/-- C10: throughout every run of `Plan`'s main loop, every key ever pushed
onto `open_pq_` is a key of `open_set_` and the pushed keys are pairwise
distinct (insertion is guarded by `open_set_` membership and `open_set_`
never shrinks); hence the `open_set_` lookup performed after each pop always
finds a node (never a default-constructed entry) and each grid index is
expanded at most once. -/
theorem c10_theorem (env : PlanEnv α) (start : Node3d) (fuel : ℕ) :
    let st := planRun env fuel (planInit env start)
    st.pushed.Nodup ∧
      (∀ k ∈ st.pushed, (lookupA st.openSet k).isSome = true) ∧
      (∀ e r, pqPop st.openPq = some (e, r) →
        (lookupA st.openSet e.1).isSome = true) ∧
      st.expanded.Nodup := by
  intro st
  have hinv : Inv env st :=
    inv_planRun env fuel (planInit env start) (inv_planInit env start)
  refine ⟨hinv.pushedNodup, hinv.pushedInOpen, ?_, ?_⟩
  · intro e r hpop
    have hperm := pqPop_perm _ _ _ hpop
    have hk : e.1 ∈ st.openPq.map Prod.fst :=
      (hperm.map Prod.fst).mem_iff.mpr (List.mem_cons_self _ _)
    refine hinv.pushedInOpen _ (hinv.pqPerm.subset ?_)
    rw [List.mem_append]
    exact Or.inl hk
  · have hnd : (st.openPq.map Prod.fst ++ st.popped).Nodup :=
      hinv.pqPerm.nodup_iff.mpr hinv.pushedNodup
    exact List.Nodup.sublist hinv.expandedSub hnd.of_append_right

/-- C5 (amended): the loop body performs no closed-set membership test on
the popped entry; instead duplicate queue entries are prevented at push time
(each index is pushed at most once, guarded by `open_set_` membership), so
in every reachable state of the search in which the loop is still running
the key about to be popped is never already in the closed set — stale queue
entries never arise, and a node whose index is in the closed set is indeed
never expanded, but without any post-pop check. -/
theorem c5_theorem (env : PlanEnv α) (start : Node3d) (fuel : ℕ)
    (e : (ℤ × ℤ × ℤ) × ℚ) (r : List ((ℤ × ℤ × ℤ) × ℚ))
    (hfin : (planRun env fuel (planInit env start)).finalNode = none)
    (hpop : pqPop (planRun env fuel (planInit env start)).openPq
      = some (e, r)) :
    containsA (planRun env fuel (planInit env start)).closeSet e.1
      = false := by
  have hinv : Inv env (planRun env fuel (planInit env start)) :=
    inv_planRun env fuel (planInit env start) (inv_planInit env start)
  have hperm := pqPop_perm _ _ _ hpop
  have hk : e.1 ∈ (planRun env fuel (planInit env start)).openPq.map
      Prod.fst :=
    (hperm.map Prod.fst).mem_iff.mpr (List.mem_cons_self _ _)
  have hnd : ((planRun env fuel (planInit env start)).openPq.map Prod.fst
      ++ (planRun env fuel (planInit env start)).popped).Nodup :=
    hinv.pqPerm.nodup_iff.mpr hinv.pushedNodup
  have hnotpop : e.1 ∉ (planRun env fuel (planInit env start)).popped :=
    fun hmem => List.disjoint_of_nodup_append hnd hk hmem
  cases hb : containsA (planRun env fuel (planInit env start)).closeSet e.1
    with
  | false => rfl
  | true =>
    exfalso
    have hmemk : e.1 ∈ (planRun env fuel (planInit env start)).closeSet.map
        Prod.fst :=
      (lookupA_isSome_iff _ _).mp hb
    exact hnotpop (hinv.closePopped hfin _ hmemk)

/-- A node stored both in the open set and (hypothetically) in the closed
set for the C5 counterexample; its grid index is `(5, 5, 0)`. -/
def closedNode : Node3d := ⟨[5], [5], [0], true, 0, 0, 0⟩

/-- The successor produced by the counterexample's only motion primitive;
its grid index is `(7, 7, 0)`. -/
def succNode : Node3d := ⟨[7], [7], [0], true, 0, 0, 0⟩

/-- Concrete loop environment for the C5 counterexample and witness: no
obstacles, Reeds-Shepp always fails, one motion primitive leading to
`succNode`. -/
def cexEnv : PlanEnv Unit :=
  { nextNodeNum := 1,
    bounds := b0,
    costParams := ⟨1, 1, 1, 1, 1, 1⟩,
    hasOverlap := fun _ _ _ _ => false,
    obstacles := [],
    shortestRSP := fun _ => none,
    nextNodeGen := fun _ i => if i = 0 then some succNode else none,
    checkDpMap := fun _ _ => 0,
    getIndexFn := fun x y phi => (x.num, y.num, phi.num) }

/-- A loop state whose queue holds an entry whose index `(5, 5, 0)` is
already a key of the closed set. -/
def cexState : PlanState Unit :=
  { openPq := [((5, 5, 0), 0)],
    openSet := [((5, 5, 0), closedNode)],
    closeSet := [((5, 5, 0), closedNode)],
    finalNode := none,
    pushed := [(5, 5, 0)],
    popped := [],
    expanded := [] }

/-- C5 (counterexample): a loop iteration whose popped entry's index is
already in the closed set is NOT skipped: no closed-set membership test is
consulted after the pop, the iteration runs analytic expansion and the
successor loop on the closed node (it enters the expanded history) and
pushes a fresh successor onto the queue. -/
theorem c5_counterexample :
    containsA cexState.closeSet (5, 5, 0) = true ∧
      (planStep cexEnv cexState).expanded = [(5, 5, 0)] ∧
      (planStep cexEnv cexState).openPq.map Prod.fst = [(7, 7, 0)] := by
  refine ⟨by decide, by decide, by decide⟩

/-- C5 (witness): the amended theorem applied to the initial state of a
concrete search. -/
theorem c5_witness :
    containsA (planRun cexEnv 0 (planInit cexEnv closedNode)).closeSet
      (envIndex cexEnv closedNode, Node3d.cost closedNode).1 = false :=
  c5_theorem cexEnv closedNode 0 (envIndex cexEnv closedNode,
    Node3d.cost closedNode) [] rfl rfl

end HybridAStar
